import Mathlib

/-!
Verification of the thread-safe job scheduler (`scheduler.cpp`).

The scheduler's shared state is guarded by a single mutex; every critical
section (`schedule`, `cancel`, `shutdown`, one iteration of the worker's
inner loop) is embedded as a pure function on an explicit state record.
Executions are modelled as sequences of events applied at mutex granularity,
which covers every interleaving the real program can exhibit at the points
where the shared state is read or written.

`std::priority_queue` is modelled as a multiset (a list) whose `top` is a
maximal element under the strict weak order `JobCompare`, exactly the
guarantee the C++ container provides.  The job closure `fn` is modelled by
a single observable bit: whether invoking it throws.
-/

namespace SchedulerSpec

/-- Priority level, from the source enum `Priority : uint8_t` with
Low = 0, Normal = 1, High = 2. -/
inductive Priority where
  | Low
  | Normal
  | High
  deriving DecidableEq, Repr

/-- Underlying integer value of the enum, used when the source compares two
`Priority` values with `<`. -/
def Priority.val : Priority → Nat
  | .Low => 0
  | .Normal => 1
  | .High => 2

/-- Shutdown discipline, from the source enum `ShutdownMode`. -/
inductive ShutdownMode where
  | Graceful
  | Immediate
  deriving DecidableEq, Repr

/-- A scheduled job, from `struct Job`.  `runAt` and `enqueuedAt` are
monotonic-clock timestamps (nanoseconds, as an integer).  The closure
`fn : std::function<void()>` is abstracted by the one bit the scheduler can
observe about running it: whether it throws. -/
structure Job where
  id : Nat
  runAt : Int
  priority : Priority
  throws : Bool
  enqueuedAt : Int
  deriving DecidableEq, Repr

/-- The heap comparator, from `struct JobCompare`:
`JobCompare a b = true` means `a` is ordered below `b` in the max-heap,
i.e. `b` is dispatched before `a`. -/
def JobCompare (a b : Job) : Bool :=
  if a.runAt ≠ b.runAt then decide (a.runAt > b.runAt)
  else if a.priority ≠ b.priority then decide (a.priority.val < b.priority.val)
  else decide (a.id > b.id)

/-- Modelled from the spec's words (§4.1 ready-ordering), for comparison with
the source comparator `JobCompare`: `a` is dispatched before `b` iff `a` has
an earlier `runAt`; or equal `runAt` and strictly higher priority; or equal
`runAt` and priority and a lower identifier. -/
def specDispatchBefore (a b : Job) : Prop :=
  a.runAt < b.runAt ∨
    (a.runAt = b.runAt ∧
      (b.priority.val < a.priority.val ∨ (a.priority = b.priority ∧ a.id < b.id)))

instance (a b : Job) : Decidable (specDispatchBefore a b) := by
  unfold specDispatchBefore; infer_instance

/-- One comparison step of `std::priority_queue`: keep the larger
(under `JobCompare`) of the two. -/
def pickTop (a b : Job) : Job := if JobCompare a b then b else a

/-- The element `top()` returns: a maximal element of the multiset under
`JobCompare`.  (For the heap this is the unique maximal element whenever the
order is total on the stored jobs, which holds when ids are distinct.) -/
def queueTop : List Job → Option Job
  | [] => none
  | j :: js => some (js.foldl pickTop j)

theorem jobCompare_iff (a b : Job) : JobCompare a b = true ↔ specDispatchBefore b a := by
  rcases eq_or_ne a.runAt b.runAt with hr | hr
  · rcases eq_or_ne a.priority b.priority with hp | hp
    · simp [JobCompare, specDispatchBefore, hr, hp, gt_iff_lt]
    · simp [JobCompare, specDispatchBefore, hr, hp, hp.symm, gt_iff_lt]
  · simp [JobCompare, specDispatchBefore, hr, hr.symm, gt_iff_lt]

theorem specDispatchBefore_trans {a b c : Job} (h1 : specDispatchBefore a b)
    (h2 : specDispatchBefore b c) : specDispatchBefore a c := by
  obtain ⟨ia, ra, pa, ta, ea⟩ := a
  obtain ⟨ib, rb, pb, tb, eb⟩ := b
  obtain ⟨ic, rc, pc, tc, ec⟩ := c
  cases pa <;> cases pb <;> cases pc <;>
    simp_all [specDispatchBefore, Priority.val] <;>
    omega

theorem specDispatchBefore_total {a b : Job} (h : a.id ≠ b.id) :
    specDispatchBefore a b ∨ specDispatchBefore b a := by
  obtain ⟨ia, ra, pa, ta, ea⟩ := a
  obtain ⟨ib, rb, pb, tb, eb⟩ := b
  simp only [Job.id] at h
  cases pa <;> cases pb <;>
    simp_all [specDispatchBefore, Priority.val] <;>
    omega

theorem specDispatchBefore_asymm {a b : Job} (h1 : specDispatchBefore a b) :
    ¬ specDispatchBefore b a := by
  obtain ⟨ia, ra, pa, ta, ea⟩ := a
  obtain ⟨ib, rb, pb, tb, eb⟩ := b
  cases pa <;> cases pb <;>
    simp_all [specDispatchBefore, Priority.val] <;>
    omega

theorem foldl_pickTop_mem (js : List Job) (a : Job) : js.foldl pickTop a ∈ a :: js := by
  induction js generalizing a with
  | nil => simp
  | cons b js ih =>
    have h := ih (pickTop a b)
    have hab : pickTop a b = a ∨ pickTop a b = b := by
      unfold pickTop; split <;> simp
    simp only [List.foldl_cons]
    rcases List.mem_cons.mp h with h1 | h1
    · rw [h1]
      rcases hab with h2 | h2 <;> rw [h2] <;> simp
    · exact List.mem_cons.mpr (Or.inr (List.mem_cons.mpr (Or.inr h1)))

theorem queueTop_mem {l : List Job} {j : Job} (h : queueTop l = some j) : j ∈ l := by
  cases l with
  | nil => simp [queueTop] at h
  | cons a js =>
    simp only [queueTop, Option.some.injEq] at h
    subst h
    exact foldl_pickTop_mem js a

theorem foldl_pickTop_min (js : List Job) (a : Job)
    (hnd : ((a :: js).map Job.id).Nodup) :
    ∀ k ∈ a :: js, k ≠ js.foldl pickTop a → specDispatchBefore (js.foldl pickTop a) k := by
  induction js generalizing a with
  | nil =>
    intro k hk hne
    simp at hk
    subst hk
    simp at hne
  | cons b js ih =>
    intro k hk hne
    simp only [List.foldl_cons] at hne ⊢
    have hcons : ∀ x : Job, (x = a ∨ x = b) → ((x :: js).map Job.id).Nodup := by
      intro x hx
      simp only [List.map_cons, List.nodup_cons] at hnd ⊢
      rcases hx with rfl | rfl
      · exact ⟨fun hmem => hnd.1 (List.mem_cons.mpr (Or.inr hmem)), hnd.2.2⟩
      · exact hnd.2
    have hab : a.id ≠ b.id := by
      simp only [List.map_cons, List.nodup_cons] at hnd
      intro h
      exact hnd.1 (by simp [h])
    have hPT : pickTop a b = a ∨ pickTop a b = b := by
      unfold pickTop; split <;> simp
    have hmin := ih (pickTop a b) (hcons _ hPT)
    by_cases hc : JobCompare a b = true
    · have hpt : pickTop a b = b := by unfold pickTop; simp [hc]
      have hba : specDispatchBefore b a := (jobCompare_iff a b).mp hc
      rcases List.mem_cons.mp hk with heq | hk1
      · by_cases hra : js.foldl pickTop (pickTop a b) = b
        · rw [heq, hra]; exact hba
        · have h1 := hmin b (by rw [hpt]; exact List.mem_cons_self _ _)
            (fun he => hra he.symm)
          rw [heq]
          exact specDispatchBefore_trans h1 hba
      · rcases List.mem_cons.mp hk1 with heq | hk2
        · rw [heq] at hne ⊢
          exact hmin b (by rw [hpt]; exact List.mem_cons_self _ _) hne
        · exact hmin k (List.mem_cons.mpr (Or.inr hk2)) hne
    · have hpt : pickTop a b = a := by unfold pickTop; simp [hc]
      have hnba : ¬ specDispatchBefore b a := fun h => hc ((jobCompare_iff a b).mpr h)
      have hab' : specDispatchBefore a b := by
        rcases specDispatchBefore_total hab with h | h
        · exact h
        · exact absurd h hnba
      rcases List.mem_cons.mp hk with heq | hk1
      · rw [heq] at hne ⊢
        exact hmin a (by rw [hpt]; exact List.mem_cons_self _ _) hne
      · rcases List.mem_cons.mp hk1 with heq | hk2
        · by_cases hra : js.foldl pickTop (pickTop a b) = a
          · rw [heq, hra]; exact hab'
          · have h1 := hmin a (by rw [hpt]; exact List.mem_cons_self _ _)
              (fun he => hra he.symm)
            rw [heq]
            exact specDispatchBefore_trans h1 hab'
        · exact hmin k (List.mem_cons.mpr (Or.inr hk2)) hne

theorem queueTop_min {l : List Job} {j : Job} (hnd : (l.map Job.id).Nodup)
    (h : queueTop l = some j) : ∀ k ∈ l, k ≠ j → specDispatchBefore j k := by
  cases l with
  | nil => simp [queueTop] at h
  | cons a js =>
    simp only [queueTop, Option.some.injEq] at h
    subst h
    exact foldl_pickTop_min js a hnd

theorem queueTop_eq_of_min {l : List Job} {j : Job} (hnd : (l.map Job.id).Nodup)
    (hj : j ∈ l) (hmin : ∀ k ∈ l, k ≠ j → specDispatchBefore j k) :
    queueTop l = some j := by
  cases l with
  | nil => simp at hj
  | cons a js =>
    obtain ⟨t, ht⟩ : ∃ t, queueTop (a :: js) = some t := ⟨_, rfl⟩
    have htm : t ∈ a :: js := queueTop_mem ht
    by_cases he : t = j
    · rw [ht, he]
    · have h1 := queueTop_min hnd ht j hj (fun hh => he hh.symm)
      have h2 := hmin t htm he
      exact absurd h2 (specDispatchBefore_asymm h1)

/-- The scheduler's shared state, from the private fields of `class Scheduler`.
All fields below `queueMutex_` in the source are guarded by that single mutex
(the metric counters are atomics; they are included here because every
critical section that touches them is embedded atomically).  The worker
threads themselves are not state: each iteration of a worker's loop appears
as an event. -/
structure SchedulerState where
  maxQueueSize : Nat
  nextId : Nat
  queue : List Job
  cancelled : List Nat
  accepting : Bool
  stopWorkers : Bool
  shutdownMode : ShutdownMode
  runningJobs : Nat
  completedJobs : Nat
  totalWaitNs : Nat
  deriving DecidableEq, Repr

/-- State made by the constructor `Scheduler(workerCount, maxQueueSize)`:
all defaults from the member initializers, plus the given bound.
`workerCount` only determines how many worker threads run the loop and does
not appear in the shared state. -/
def initState (maxQueueSize : Nat) : SchedulerState :=
  { maxQueueSize := maxQueueSize
    nextId := 1
    queue := []
    cancelled := []
    accepting := true
    stopWorkers := false
    shutdownMode := ShutdownMode.Graceful
    runningJobs := 0
    completedJobs := 0
    totalWaitNs := 0 }

namespace Scheduler

/-- The critical section of `Scheduler::schedule(job, runAt, priority)`.
`fnThrows` stands for the closure argument; `now` is the `Clock::now()`
reading taken for `enqueuedAt`.  Returns the new state and the returned
`std::optional<JobId>`. -/
def schedule (s : SchedulerState) (fnThrows : Bool) (runAt : Int)
    (priority : Priority) (now : Int) : SchedulerState × Option Nat :=
  if s.accepting = false ∨ s.maxQueueSize ≤ s.queue.length then (s, none)
  else
    ({ s with
        nextId := s.nextId + 1
        queue := { id := s.nextId, runAt := runAt, priority := priority
                   throws := fnThrows, enqueuedAt := now } :: s.queue },
     some s.nextId)

/-- The critical section of `Scheduler::cancel(id)`: refuse when not
accepting, otherwise record `cancelled_[id] = true`. -/
def cancel (s : SchedulerState) (id : Nat) : SchedulerState × Bool :=
  if s.accepting = false then (s, false)
  else ({ s with cancelled := s.cancelled.insert id }, true)

/-- The critical section of `Scheduler::shutdown(mode)` (the part under the
lock; the subsequent `notify_all` and `joinWorkers` are thread machinery). -/
def shutdown (s : SchedulerState) (mode : ShutdownMode) : SchedulerState :=
  let s1 := { s with accepting := false, shutdownMode := mode }
  match mode with
  | ShutdownMode.Immediate => { s1 with queue := [], stopWorkers := true }
  | ShutdownMode.Graceful =>
      if s1.queue.isEmpty then { s1 with stopWorkers := true } else s1

end Scheduler

/-- Outcome of one iteration of the inner `while (true)` loop of
`Scheduler::workerLoop`, all taken under the mutex. -/
inductive WorkerDecision where
  | exitLoop
  | waitEmpty
  | timedWait (deadline : Int)
  | skipCancelled (j : Job)
  | dispatch (j : Job)
  deriving DecidableEq, Repr

namespace Scheduler

/-- One iteration of the inner loop of `Scheduler::workerLoop`, from the
source: exit on `stopWorkers_`; on an empty queue either take the graceful
drain-complete transition or block on the condition variable; on a head that
is not yet due, block in a timed wait; otherwise pop the head and either
skip it (when its id is in `cancelled_`) or hand it to the dispatch path.
`now` is the `Clock::now()` reading of this iteration. -/
def workerPoll (s : SchedulerState) (now : Int) : WorkerDecision × SchedulerState :=
  if s.stopWorkers then (WorkerDecision.exitLoop, s)
  else
    match queueTop s.queue with
    | none =>
        if s.accepting = false ∧ s.shutdownMode = ShutdownMode.Graceful then
          (WorkerDecision.exitLoop, { s with stopWorkers := true })
        else
          (WorkerDecision.waitEmpty, s)
    | some top =>
        if now < top.runAt then
          (WorkerDecision.timedWait top.runAt, s)
        else
          if top.id ∈ s.cancelled then
            (WorkerDecision.skipCancelled top,
              { s with queue := s.queue.erase top
                       cancelled := s.cancelled.erase top.id })
          else
            (WorkerDecision.dispatch top, { s with queue := s.queue.erase top })

/-- Invoking the popped job's closure outside the lock: `job.fn()` either
returns or throws. -/
def runClosure (j : Job) : Except Unit Unit :=
  if j.throws then Except.error () else Except.ok ()

/-- The dispatch path of `Scheduler::workerLoop` after the pop:
increment `runningJobs_`, invoke the closure inside `try ... catch(...)`
(the exception is swallowed), then add the positive part of
`now - enqueuedAt` to `totalWaitNs_`, increment `completedJobs_` and
decrement `runningJobs_`.  `endTime` is the `Clock::now()` reading taken
after the closure returns. -/
def executeJob (s : SchedulerState) (j : Job) (endTime : Int) : SchedulerState :=
  let s1 := { s with runningJobs := s.runningJobs + 1 }
  let s2 :=
    match runClosure j with
    | Except.ok _ => s1
    | Except.error _ => s1
  let waitNs := endTime - j.enqueuedAt
  let s3 :=
    if 0 < waitNs then { s2 with totalWaitNs := s2.totalWaitNs + waitNs.toNat }
    else s2
  { s3 with completedJobs := s3.completedJobs + 1, runningJobs := s3.runningJobs - 1 }

end Scheduler

/-- One atomic step of the system.  Producer calls and worker iterations are
interleaved at mutex granularity; each constructor carries the clock readings
the corresponding code takes. -/
inductive Event where
  | submit (fnThrows : Bool) (runAt : Int) (priority : Priority) (now : Int)
  | cancelReq (id : Nat)
  | shutdownReq (mode : ShutdownMode)
  | workerIter (now : Int) (endTime : Int)
  deriving DecidableEq, Repr

/-- Externally visible outcome of a step: return values handed to producers,
closure invocations, lazy-cancel skips, and jobs dropped by an immediate
shutdown. -/
inductive Obs where
  | accepted (id : Nat)
  | rejected
  | cancelAccepted (id : Nat)
  | cancelRefused (id : Nat)
  | dispatched (j : Job) (now : Int)
  | skipped (id : Nat)
  | dropped (jobs : List Job)
  deriving DecidableEq, Repr

/-- Apply one event to the state, producing the observations it emits. -/
def stepEvent (s : SchedulerState) : Event → SchedulerState × List Obs
  | Event.submit th runAt p now =>
      match Scheduler.schedule s th runAt p now with
      | (s1, some i) => (s1, [Obs.accepted i])
      | (s1, none) => (s1, [Obs.rejected])
  | Event.cancelReq id =>
      match Scheduler.cancel s id with
      | (s1, true) => (s1, [Obs.cancelAccepted id])
      | (s1, false) => (s1, [Obs.cancelRefused id])
  | Event.shutdownReq mode =>
      (Scheduler.shutdown s mode,
        match mode with
        | ShutdownMode.Immediate => [Obs.dropped s.queue]
        | ShutdownMode.Graceful => [])
  | Event.workerIter now endTime =>
      match Scheduler.workerPoll s now with
      | (WorkerDecision.dispatch j, s1) =>
          (Scheduler.executeJob s1 j endTime, [Obs.dispatched j now])
      | (WorkerDecision.skipCancelled j, s1) => (s1, [Obs.skipped j.id])
      | (_, s1) => (s1, [])

/-- Run a sequence of events, collecting all observations in order. -/
def run (s : SchedulerState) : List Event → SchedulerState × List Obs
  | [] => (s, [])
  | e :: t =>
      let p := stepEvent s e
      let q := run p.1 t
      (q.1, p.2 ++ q.2)

theorem queueTop_eq_none {l : List Job} : queueTop l = none ↔ l = [] := by
  cases l <;> simp [queueTop]

theorem schedule_cases (s : SchedulerState) (th : Bool) (runAt : Int)
    (p : Priority) (now : Int) :
    (Scheduler.schedule s th runAt p now = (s, none) ∧
       (s.accepting = false ∨ s.maxQueueSize ≤ s.queue.length)) ∨
    (s.accepting = true ∧ s.queue.length < s.maxQueueSize ∧
       Scheduler.schedule s th runAt p now =
         ({ s with
              nextId := s.nextId + 1
              queue := { id := s.nextId, runAt := runAt, priority := p
                         throws := th, enqueuedAt := now } :: s.queue },
          some s.nextId)) := by
  by_cases h : s.accepting = false ∨ s.maxQueueSize ≤ s.queue.length
  · left
    exact ⟨by simp only [Scheduler.schedule, if_pos h], h⟩
  · right
    have h1 : s.accepting = true := by
      rcases Bool.eq_false_or_eq_true s.accepting with hb | hb
      · exact hb
      · exact absurd (Or.inl hb) h
    have h2 : s.queue.length < s.maxQueueSize := by
      rcases Nat.lt_or_ge s.queue.length s.maxQueueSize with hl | hl
      · exact hl
      · exact absurd (Or.inr hl) h
    exact ⟨h1, h2, by simp only [Scheduler.schedule, if_neg h]⟩

theorem cancel_refused_iff (s : SchedulerState) (id : Nat) :
    (Scheduler.cancel s id).2 = false ↔ s.accepting = false := by
  unfold Scheduler.cancel
  by_cases h : s.accepting = false <;> simp [h]

theorem cancel_accepted_eq (s : SchedulerState) (id : Nat) (h : s.accepting = true) :
    Scheduler.cancel s id = ({ s with cancelled := s.cancelled.insert id }, true) := by
  unfold Scheduler.cancel
  simp [h]

theorem stepEvent_cancel_eq (s : SchedulerState) (id : Nat) :
    stepEvent s (Event.cancelReq id) =
      if s.accepting = true
      then ({ s with cancelled := s.cancelled.insert id }, [Obs.cancelAccepted id])
      else (s, [Obs.cancelRefused id]) := by
  by_cases h : s.accepting = true
  · simp [stepEvent, Scheduler.cancel, h]
  · have h2 : s.accepting = false := by
      rcases Bool.eq_false_or_eq_true s.accepting with hb | hb
      · exact absurd hb h
      · exact hb
    simp [stepEvent, Scheduler.cancel, h, h2]

theorem shutdown_immediate_eq (s : SchedulerState) :
    Scheduler.shutdown s ShutdownMode.Immediate =
      { s with accepting := false, shutdownMode := ShutdownMode.Immediate
               queue := [], stopWorkers := true } := rfl

theorem shutdown_graceful_eq (s : SchedulerState) :
    Scheduler.shutdown s ShutdownMode.Graceful =
      { s with accepting := false, shutdownMode := ShutdownMode.Graceful
               stopWorkers := (s.queue.isEmpty || s.stopWorkers) } := by
  unfold Scheduler.shutdown
  cases hq : s.queue <;> simp [hq]

theorem executeJob_eq (s : SchedulerState) (j : Job) (endTime : Int) :
    Scheduler.executeJob s j endTime =
      { s with completedJobs := s.completedJobs + 1
               totalWaitNs := s.totalWaitNs + (endTime - j.enqueuedAt).toNat } := by
  cases s
  cases hb : j.throws <;>
    simp only [Scheduler.executeJob, Scheduler.runClosure, hb] <;>
    split_ifs with hw <;>
    simp_all

theorem stepEvent_worker_cases (s : SchedulerState) (now endTime : Int) :
    stepEvent s (Event.workerIter now endTime) = (s, []) ∨
    (stepEvent s (Event.workerIter now endTime) = ({ s with stopWorkers := true }, []) ∧
       s.queue = [] ∧ s.accepting = false ∧ s.shutdownMode = ShutdownMode.Graceful) ∨
    (∃ top, queueTop s.queue = some top ∧ top.runAt ≤ now ∧ s.stopWorkers = false ∧
       ((top.id ∈ s.cancelled ∧
           stepEvent s (Event.workerIter now endTime) =
             ({ s with queue := s.queue.erase top
                       cancelled := s.cancelled.erase top.id },
              [Obs.skipped top.id])) ∨
        (top.id ∉ s.cancelled ∧
           stepEvent s (Event.workerIter now endTime) =
             (Scheduler.executeJob { s with queue := s.queue.erase top } top endTime,
              [Obs.dispatched top now])))) := by
  by_cases hs : s.stopWorkers = true
  · left
    simp [stepEvent, Scheduler.workerPoll, hs]
  · replace hs : s.stopWorkers = false := by
      rcases Bool.eq_false_or_eq_true s.stopWorkers with hb | hb
      · exact absurd hb hs
      · exact hb
    cases ht : queueTop s.queue with
    | none =>
        by_cases hg : s.accepting = false ∧ s.shutdownMode = ShutdownMode.Graceful
        · right; left
          exact ⟨by simp [stepEvent, Scheduler.workerPoll, hs, ht, hg],
                 queueTop_eq_none.mp ht, hg.1, hg.2⟩
        · left
          simp [stepEvent, Scheduler.workerPoll, hs, ht, hg]
    | some top =>
        by_cases hlt : now < top.runAt
        · left
          simp [stepEvent, Scheduler.workerPoll, hs, ht, hlt]
        · right; right
          refine ⟨top, rfl, by omega, hs, ?_⟩
          by_cases hc : top.id ∈ s.cancelled
          · left
            exact ⟨hc, by simp [stepEvent, Scheduler.workerPoll, hs, ht, hlt, hc]⟩
          · right
            exact ⟨hc, by simp [stepEvent, Scheduler.workerPoll, hs, ht, hlt, hc]⟩

/-- Structural invariant holding at every lock release: identifiers of queued
jobs are pairwise distinct and below the identifier counter. -/
def WF (s : SchedulerState) : Prop :=
  (s.queue.map Job.id).Nodup ∧ ∀ j ∈ s.queue, j.id < s.nextId

theorem WF_initState (m : Nat) : WF (initState m) := by
  constructor <;> simp [initState]

theorem WF_stepEvent {s : SchedulerState} (hwf : WF s) (e : Event) :
    WF (stepEvent s e).1 := by
  obtain ⟨hnd, hlt⟩ := hwf
  cases e with
  | submit th runAt p now =>
      rcases schedule_cases s th runAt p now with ⟨heq, _⟩ | ⟨_, _, heq⟩
      · simp only [stepEvent, heq]
        exact ⟨hnd, hlt⟩
      · simp only [stepEvent, heq]
        constructor
        · simp only [List.map_cons, List.nodup_cons]
          refine ⟨?_, hnd⟩
          intro hmem
          rcases List.mem_map.mp hmem with ⟨j, hj, hid⟩
          have := hlt j hj
          omega
        · intro j hj
          rcases List.mem_cons.mp hj with heq2 | hj2
          · rw [heq2]
            simp
          · exact Nat.lt_succ_of_lt (hlt j hj2)
  | cancelReq id =>
      rw [stepEvent_cancel_eq]
      split_ifs with h <;> exact ⟨hnd, hlt⟩
  | shutdownReq mode =>
      cases mode with
      | Immediate =>
          simp only [stepEvent, shutdown_immediate_eq]
          exact ⟨by simp, by simp⟩
      | Graceful =>
          simp only [stepEvent, shutdown_graceful_eq]
          exact ⟨hnd, hlt⟩
  | workerIter now endTime =>
      rcases stepEvent_worker_cases s now endTime with heq | ⟨heq, _⟩ | ⟨top, htop, _, _, hbr⟩
      · rw [heq]; exact ⟨hnd, hlt⟩
      · rw [heq]; exact ⟨hnd, hlt⟩
      · have hnd' : ((s.queue.erase top).map Job.id).Nodup :=
          List.Nodup.sublist (List.Sublist.map Job.id (List.erase_sublist top s.queue)) hnd
        rcases hbr with ⟨_, heq⟩ | ⟨_, heq⟩
        · rw [heq]
          exact ⟨hnd', fun j hj => hlt j (List.mem_of_mem_erase hj)⟩
        · rw [heq, executeJob_eq]
          exact ⟨hnd', fun j hj => hlt j (List.mem_of_mem_erase hj)⟩

theorem WF_run {s : SchedulerState} (hwf : WF s) (t : List Event) :
    WF (run s t).1 := by
  induction t generalizing s with
  | nil => exact hwf
  | cons e t ih =>
      simp only [run]
      exact ih (WF_stepEvent hwf e)

/-- Once this holds for an identifier, no job carrying it can ever be
dispatched: either the identifier is still marked cancelled, or it is gone
from the queue and can never be issued again. -/
def Suppressed (id : Nat) (s : SchedulerState) : Prop :=
  id ∈ s.cancelled ∨ (id ∉ s.queue.map Job.id ∧ id < s.nextId)

theorem suppressed_stepEvent {id : Nat} {s : SchedulerState} (hwf : WF s)
    (hsup : Suppressed id s) (e : Event) :
    Suppressed id (stepEvent s e).1 ∧
      ∀ j now, Obs.dispatched j now ∈ (stepEvent s e).2 → j.id ≠ id := by
  obtain ⟨hnd, hlt⟩ := hwf
  cases e with
  | submit th runAt p now =>
      rcases schedule_cases s th runAt p now with ⟨heq, _⟩ | ⟨_, _, heq⟩
      · simp only [stepEvent, heq]
        exact ⟨hsup, by simp⟩
      · simp only [stepEvent, heq]
        refine ⟨?_, by simp⟩
        rcases hsup with h | ⟨h1, h2⟩
        · exact Or.inl h
        · right
          constructor
          · intro hmem
            simp only [List.map_cons, List.mem_cons] at hmem
            rcases hmem with hh | hh
            · have hh2 : id = s.nextId := hh
              omega
            · exact h1 hh
          · exact Nat.lt_succ_of_lt h2
  | cancelReq cid =>
      rw [stepEvent_cancel_eq]
      split_ifs with h
      · refine ⟨?_, by simp⟩
        rcases hsup with hc | ⟨h1, h2⟩
        · exact Or.inl (List.mem_insert_of_mem hc)
        · exact Or.inr ⟨h1, h2⟩
      · exact ⟨hsup, by simp⟩
  | shutdownReq mode =>
      cases mode with
      | Immediate =>
          simp only [stepEvent, shutdown_immediate_eq]
          refine ⟨?_, by simp⟩
          rcases hsup with hc | ⟨_, h2⟩
          · exact Or.inl hc
          · exact Or.inr ⟨by simp, h2⟩
      | Graceful =>
          simp only [stepEvent, shutdown_graceful_eq]
          exact ⟨hsup, by simp⟩
  | workerIter now endTime =>
      rcases stepEvent_worker_cases s now endTime with heq | ⟨heq, _⟩ | ⟨top, htop, _, _, hbr⟩
      · rw [heq]; exact ⟨hsup, by simp⟩
      · rw [heq]; exact ⟨hsup, by simp⟩
      · have htm : top ∈ s.queue := queueTop_mem htop
        rcases hbr with ⟨hc, heq⟩ | ⟨hc, heq⟩
        · rw [heq]
          refine ⟨?_, by simp⟩
          by_cases hid : top.id = id
          · right
            constructor
            · intro hmem
              rcases List.mem_map.mp hmem with ⟨j, hj, hjid⟩
              have hje : j = top :=
                List.inj_on_of_nodup_map hnd (List.mem_of_mem_erase hj) htm
                  (hjid.trans hid.symm)
              rw [hje] at hj
              exact (List.Nodup.not_mem_erase (List.Nodup.of_map Job.id hnd)) hj
            · have h3 : id < s.nextId := hid ▸ hlt top htm
              exact h3
          · rcases hsup with hcid | ⟨h1, h2⟩
            · left
              exact (List.mem_erase_of_ne (fun hh => hid hh.symm)).mpr hcid
            · right
              refine ⟨?_, h2⟩
              intro hmem
              rcases List.mem_map.mp hmem with ⟨j, hj, hjid⟩
              exact h1 (List.mem_map.mpr ⟨j, List.mem_of_mem_erase hj, hjid⟩)
        · rw [heq, executeJob_eq]
          constructor
          · rcases hsup with hcid | ⟨h1, h2⟩
            · exact Or.inl hcid
            · right
              refine ⟨?_, h2⟩
              intro hmem
              rcases List.mem_map.mp hmem with ⟨j, hj, hjid⟩
              exact h1 (List.mem_map.mpr ⟨j, List.mem_of_mem_erase hj, hjid⟩)
          · intro j now2 hmem
            simp only [List.mem_singleton, Obs.dispatched.injEq] at hmem
            rw [hmem.1]
            intro hti
            rcases hsup with hcid | ⟨h1, _⟩
            · rw [hti] at hc
              exact hc hcid
            · exact h1 (List.mem_map.mpr ⟨top, htm, hti⟩)

theorem suppressed_run {id : Nat} {s : SchedulerState} (hwf : WF s)
    (hsup : Suppressed id s) (t : List Event) :
    ∀ j now, Obs.dispatched j now ∈ (run s t).2 → j.id ≠ id := by
  induction t generalizing s with
  | nil => intro j now h; simp [run] at h
  | cons e t ih =>
      intro j now h
      simp only [run, List.mem_append] at h
      rcases h with h | h
      · exact (suppressed_stepEvent ⟨hwf.1, hwf.2⟩ hsup e).2 j now h
      · exact ih (WF_stepEvent hwf e) (suppressed_stepEvent hwf hsup e).1 j now h

theorem drained_stepEvent {s : SchedulerState} (h1 : s.queue = [])
    (h2 : s.accepting = false) (e : Event) :
    (stepEvent s e).1.queue = [] ∧ (stepEvent s e).1.accepting = false ∧
      ∀ j now, Obs.dispatched j now ∉ (stepEvent s e).2 := by
  cases e with
  | submit th runAt p now =>
      rcases schedule_cases s th runAt p now with ⟨heq, _⟩ | ⟨hacc, _, _⟩
      · simp only [stepEvent, heq]
        exact ⟨h1, h2, by simp⟩
      · simp [h2] at hacc
  | cancelReq cid =>
      rw [stepEvent_cancel_eq]
      split_ifs with h
      · simp [h2] at h
      · exact ⟨h1, h2, by simp⟩
  | shutdownReq mode =>
      cases mode with
      | Immediate =>
          simp only [stepEvent, shutdown_immediate_eq]
          exact ⟨by trivial, by trivial, by simp⟩
      | Graceful =>
          simp only [stepEvent, shutdown_graceful_eq]
          exact ⟨h1, by trivial, by simp⟩
  | workerIter now endTime =>
      rcases stepEvent_worker_cases s now endTime with heq | ⟨heq, _⟩ | ⟨top, htop, _, _, _⟩
      · rw [heq]; exact ⟨h1, h2, by simp⟩
      · rw [heq]; exact ⟨h1, h2, by simp⟩
      · exfalso
        have htm := queueTop_mem htop
        rw [h1] at htm
        simp at htm

theorem drained_run {s : SchedulerState} (h1 : s.queue = [])
    (h2 : s.accepting = false) (t : List Event) :
    ∀ j now, Obs.dispatched j now ∉ (run s t).2 := by
  induction t generalizing s with
  | nil => intro j now h; simp [run] at h
  | cons e t ih =>
      intro j now h
      simp only [run, List.mem_append] at h
      obtain ⟨hq, ha, hobs⟩ := drained_stepEvent h1 h2 e
      rcases h with h | h
      · exact hobs j now h
      · exact ih hq ha j now h

theorem dispatch_time_stepEvent {s : SchedulerState} {e : Event} {j : Job} {now : Int}
    (h : Obs.dispatched j now ∈ (stepEvent s e).2) : j.runAt ≤ now := by
  cases e with
  | submit th runAt p now2 =>
      rcases schedule_cases s th runAt p now2 with ⟨heq, _⟩ | ⟨_, _, heq⟩ <;>
        simp [stepEvent, heq] at h
  | cancelReq cid =>
      rw [stepEvent_cancel_eq] at h
      split_ifs at h <;> simp at h
  | shutdownReq mode =>
      cases mode <;>
        simp [stepEvent, shutdown_graceful_eq, shutdown_immediate_eq] at h
  | workerIter now2 endTime =>
      rcases stepEvent_worker_cases s now2 endTime with heq | ⟨heq, _⟩ | ⟨top, htop, hle, _, hbr⟩
      · rw [heq] at h; simp at h
      · rw [heq] at h; simp at h
      · rcases hbr with ⟨_, heq⟩ | ⟨_, heq⟩
        · rw [heq] at h; simp at h
        · rw [heq] at h
          simp only [List.mem_singleton, Obs.dispatched.injEq] at h
          rw [h.1, h.2]
          exact hle

theorem dispatch_time_run {s : SchedulerState} {t : List Event} {j : Job} {now : Int}
    (h : Obs.dispatched j now ∈ (run s t).2) : j.runAt ≤ now := by
  induction t generalizing s with
  | nil => simp [run] at h
  | cons e t ih =>
      simp only [run, List.mem_append] at h
      rcases h with h | h
      · exact dispatch_time_stepEvent h
      · exact ih h

/-- Number of accepted submissions in a list of observations. -/
def countAccepted (obs : List Obs) : Nat :=
  obs.countP fun o => match o with | Obs.accepted _ => true | _ => false

/-- Number of closure invocations (dispatches) in a list of observations. -/
def countDispatched (obs : List Obs) : Nat :=
  obs.countP fun o => match o with | Obs.dispatched _ _ => true | _ => false

/-- Number of jobs popped and discarded because their id was cancelled. -/
def countSkipped (obs : List Obs) : Nat :=
  obs.countP fun o => match o with | Obs.skipped _ => true | _ => false

/-- Number of pending jobs dropped by immediate shutdowns. -/
def countDropped (obs : List Obs) : Nat :=
  (obs.map fun o => match o with | Obs.dropped js => js.length | _ => 0).sum

theorem countAccepted_append (l1 l2 : List Obs) :
    countAccepted (l1 ++ l2) = countAccepted l1 + countAccepted l2 :=
  List.countP_append _ _ _

theorem countDispatched_append (l1 l2 : List Obs) :
    countDispatched (l1 ++ l2) = countDispatched l1 + countDispatched l2 :=
  List.countP_append _ _ _

theorem countSkipped_append (l1 l2 : List Obs) :
    countSkipped (l1 ++ l2) = countSkipped l1 + countSkipped l2 :=
  List.countP_append _ _ _

theorem countDropped_append (l1 l2 : List Obs) :
    countDropped (l1 ++ l2) = countDropped l1 + countDropped l2 := by
  unfold countDropped
  rw [List.map_append, List.sum_append]

theorem conservation_stepEvent (s : SchedulerState) (e : Event) :
    countAccepted (stepEvent s e).2 + s.queue.length =
      countDispatched (stepEvent s e).2 + countSkipped (stepEvent s e).2 +
        countDropped (stepEvent s e).2 + (stepEvent s e).1.queue.length := by
  cases e with
  | submit th runAt p now =>
      rcases schedule_cases s th runAt p now with ⟨heq, _⟩ | ⟨_, _, heq⟩
      · simp [stepEvent, heq, countAccepted, countDispatched, countSkipped,
              countDropped]
      · simp [stepEvent, heq, countAccepted, countDispatched, countSkipped,
              countDropped]
        omega
  | cancelReq cid =>
      rw [stepEvent_cancel_eq]
      split_ifs with h <;>
        simp [countAccepted, countDispatched, countSkipped, countDropped]
  | shutdownReq mode =>
      cases mode <;>
        simp [stepEvent, shutdown_graceful_eq, shutdown_immediate_eq,
              countAccepted, countDispatched, countSkipped, countDropped]
  | workerIter now endTime =>
      rcases stepEvent_worker_cases s now endTime with heq | ⟨heq, _⟩ | ⟨top, htop, _, _, hbr⟩
      · rw [heq]
        simp [countAccepted, countDispatched, countSkipped, countDropped]
      · rw [heq]
        simp [countAccepted, countDispatched, countSkipped, countDropped]
      · have htm : top ∈ s.queue := queueTop_mem htop
        have hlen : (s.queue.erase top).length = s.queue.length - 1 :=
          List.length_erase_of_mem htm
        have hpos : 0 < s.queue.length := List.length_pos_of_mem htm
        rcases hbr with ⟨_, heq⟩ | ⟨_, heq⟩
        · rw [heq]
          simp [countAccepted, countDispatched, countSkipped, countDropped, hlen]
          omega
        · rw [heq, executeJob_eq]
          simp [countAccepted, countDispatched, countSkipped, countDropped, hlen]
          omega

theorem conservation_run (s : SchedulerState) (t : List Event) :
    countAccepted (run s t).2 + s.queue.length =
      countDispatched (run s t).2 + countSkipped (run s t).2 +
        countDropped (run s t).2 + (run s t).1.queue.length := by
  induction t generalizing s with
  | nil => simp [run, countAccepted, countDispatched, countSkipped, countDropped]
  | cons e t ih =>
      simp only [run, countAccepted_append, countDispatched_append,
                 countSkipped_append, countDropped_append]
      have h1 := conservation_stepEvent s e
      have h2 := ih (stepEvent s e).1
      omega

/-- Identifiers returned by accepted submissions, in submission order. -/
def acceptedIds (obs : List Obs) : List Nat :=
  obs.filterMap fun o => match o with | Obs.accepted i => some i | _ => none

theorem acceptedIds_append (l1 l2 : List Obs) :
    acceptedIds (l1 ++ l2) = acceptedIds l1 ++ acceptedIds l2 :=
  List.filterMap_append _ _ _

theorem ids_consecutive_run (s : SchedulerState) (t : List Event) :
    acceptedIds (run s t).2 = List.range' s.nextId (countAccepted (run s t).2) ∧
      (run s t).1.nextId = s.nextId + countAccepted (run s t).2 := by
  induction t generalizing s with
  | nil => simp [run, acceptedIds, countAccepted]
  | cons e t ih =>
      have hstep : (acceptedIds (stepEvent s e).2 = [s.nextId] ∧
                      countAccepted (stepEvent s e).2 = 1 ∧
                      (stepEvent s e).1.nextId = s.nextId + 1) ∨
                   (acceptedIds (stepEvent s e).2 = [] ∧
                      countAccepted (stepEvent s e).2 = 0 ∧
                      (stepEvent s e).1.nextId = s.nextId) := by
        cases e with
        | submit th runAt p now =>
            rcases schedule_cases s th runAt p now with ⟨heq, _⟩ | ⟨_, _, heq⟩
            · right; simp [stepEvent, heq, acceptedIds, countAccepted]
            · left; simp [stepEvent, heq, acceptedIds, countAccepted]
        | cancelReq cid =>
            right
            rw [stepEvent_cancel_eq]
            split_ifs with h <;> simp [acceptedIds, countAccepted]
        | shutdownReq mode =>
            right
            cases mode <;>
              simp [stepEvent, shutdown_graceful_eq, shutdown_immediate_eq,
                    acceptedIds, countAccepted]
        | workerIter now endTime =>
            right
            rcases stepEvent_worker_cases s now endTime with heq | ⟨heq, _⟩ | ⟨top, _, _, _, hbr⟩
            · rw [heq]; simp [acceptedIds, countAccepted]
            · rw [heq]; simp [acceptedIds, countAccepted]
            · rcases hbr with ⟨_, heq⟩ | ⟨_, heq⟩
              · rw [heq]; simp [acceptedIds, countAccepted]
              · rw [heq, executeJob_eq]; simp [acceptedIds, countAccepted]
      obtain ⟨ih1, ih2⟩ := ih (stepEvent s e).1
      rcases hstep with ⟨hids, hcnt, hnid⟩ | ⟨hids, hcnt, hnid⟩
      · rw [hnid] at ih1 ih2
        constructor
        · simp only [run, acceptedIds_append, countAccepted_append, hids, hcnt, ih1]
          rw [Nat.add_comm 1 (countAccepted (run (stepEvent s e).1 t).2),
              List.range'_succ]
          simp
        · simp only [run, countAccepted_append, hcnt, ih2]
          omega
      · rw [hnid] at ih1 ih2
        constructor
        · simp only [run, acceptedIds_append, countAccepted_append, hids, hcnt, ih1]
          simp
        · simp only [run, countAccepted_append, hcnt, ih2]
          omega

theorem WF_cancel {s : SchedulerState} (hwf : WF s) (id : Nat) :
    WF (Scheduler.cancel s id).1 := by
  unfold Scheduler.cancel
  split_ifs with h
  · exact hwf
  · exact ⟨hwf.1, hwf.2⟩

/-- Identifiers of dispatched jobs, in dispatch order. -/
def dispatchedIds (obs : List Obs) : List Nat :=
  obs.filterMap fun o => match o with | Obs.dispatched j _ => some j.id | _ => none

theorem dispatchedIds_append (l1 l2 : List Obs) :
    dispatchedIds (l1 ++ l2) = dispatchedIds l1 ++ dispatchedIds l2 :=
  List.filterMap_append _ _ _

theorem mem_dispatchedIds {obs : List Obs} {i : Nat} :
    i ∈ dispatchedIds obs ↔ ∃ j now, Obs.dispatched j now ∈ obs ∧ j.id = i := by
  unfold dispatchedIds
  rw [List.mem_filterMap]
  constructor
  · rintro ⟨o, ho, hoi⟩
    cases o with
    | dispatched j now =>
        simp only [Option.some.injEq] at hoi
        exact ⟨j, now, ho, hoi⟩
    | accepted i2 => simp at hoi
    | rejected => simp at hoi
    | cancelAccepted i2 => simp at hoi
    | cancelRefused i2 => simp at hoi
    | skipped i2 => simp at hoi
    | dropped js => simp at hoi
  · rintro ⟨j, now, hmem, hji⟩
    exact ⟨Obs.dispatched j now, hmem, by simp [hji]⟩

theorem dispatched_idOut_stepEvent {s : SchedulerState} {e : Event} {j : Job} {now : Int}
    (hwf : WF s) (h : Obs.dispatched j now ∈ (stepEvent s e).2) :
    j.id ∉ (stepEvent s e).1.queue.map Job.id ∧ j.id < (stepEvent s e).1.nextId := by
  obtain ⟨hnd, hlt⟩ := hwf
  cases e with
  | submit th runAt p now2 =>
      rcases schedule_cases s th runAt p now2 with ⟨heq, _⟩ | ⟨_, _, heq⟩ <;>
        simp [stepEvent, heq] at h
  | cancelReq cid =>
      rw [stepEvent_cancel_eq] at h ⊢
      split_ifs at h ⊢ <;> simp at h
  | shutdownReq mode =>
      cases mode <;>
        simp [stepEvent, shutdown_graceful_eq, shutdown_immediate_eq] at h
  | workerIter now2 endTime =>
      rcases stepEvent_worker_cases s now2 endTime with heq | ⟨heq, _⟩ | ⟨top, htop, _, _, hbr⟩
      · rw [heq] at h; simp at h
      · rw [heq] at h; simp at h
      · have htm := queueTop_mem htop
        rcases hbr with ⟨_, heq⟩ | ⟨_, heq⟩
        · rw [heq] at h; simp at h
        · rw [heq] at h ⊢
          simp only [List.mem_singleton, Obs.dispatched.injEq] at h
          rw [executeJob_eq]
          constructor
          · intro hmem
            rcases List.mem_map.mp hmem with ⟨j2, hj2, hjid⟩
            have hje : j2 = top :=
              List.inj_on_of_nodup_map hnd (List.mem_of_mem_erase hj2) htm
                (by rw [hjid, h.1])
            rw [hje] at hj2
            exact (List.Nodup.not_mem_erase (List.Nodup.of_map Job.id hnd)) hj2
          · rw [h.1]
            exact hlt top htm

theorem nodup_of_length_le_one {l : List Nat} (h : l.length ≤ 1) : l.Nodup := by
  cases l with
  | nil => simp
  | cons a l2 =>
      cases l2 with
      | nil => simp
      | cons b l3 => simp at h

theorem stepEvent_obs_short (s : SchedulerState) (e : Event) :
    (stepEvent s e).2.length ≤ 1 := by
  cases e with
  | submit th runAt p now =>
      rcases schedule_cases s th runAt p now with ⟨heq, _⟩ | ⟨_, _, heq⟩ <;>
        simp [stepEvent, heq]
  | cancelReq cid =>
      rw [stepEvent_cancel_eq]
      split_ifs with h <;> simp
  | shutdownReq mode =>
      cases mode <;>
        simp [stepEvent, shutdown_graceful_eq, shutdown_immediate_eq]
  | workerIter now endTime =>
      rcases stepEvent_worker_cases s now endTime with heq | ⟨heq, _⟩ | ⟨top, _, _, _, hbr⟩
      · rw [heq]; simp
      · rw [heq]; simp
      · rcases hbr with ⟨_, heq⟩ | ⟨_, heq⟩ <;> rw [heq] <;> simp

theorem dispatchedIds_nodup_run {s : SchedulerState} (hwf : WF s) (t : List Event) :
    (dispatchedIds (run s t).2).Nodup := by
  induction t generalizing s with
  | nil => simp [run, dispatchedIds]
  | cons e t ih =>
      simp only [run, dispatchedIds_append]
      rw [List.nodup_append]
      refine ⟨?_, ih (WF_stepEvent hwf e), ?_⟩
      · refine nodup_of_length_le_one ?_
        calc (dispatchedIds (stepEvent s e).2).length
            ≤ (stepEvent s e).2.length := List.length_filterMap_le _ _
          _ ≤ 1 := stepEvent_obs_short s e
      · intro i h1 h2
        rcases mem_dispatchedIds.mp h1 with ⟨j, now, hmem, hji⟩
        rcases mem_dispatchedIds.mp h2 with ⟨j2, now2, hmem2, hji2⟩
        have hout := dispatched_idOut_stepEvent hwf hmem
        have hne := suppressed_run (WF_stepEvent hwf e) (Or.inr hout) t j2 now2 hmem2
        exact hne (hji2.trans hji.symm)

/-- Invariant: whenever `shutdownMode = Immediate`, the queue has been
discarded and acceptance is off. -/
def ImmInv (s : SchedulerState) : Prop :=
  s.shutdownMode = ShutdownMode.Immediate → (s.queue = [] ∧ s.accepting = false)

theorem immInv_initState (m : Nat) : ImmInv (initState m) := by
  intro hmode
  simp [initState] at hmode

theorem immInv_stepEvent {s : SchedulerState} (h : ImmInv s) (e : Event) :
    ImmInv (stepEvent s e).1 := by
  cases e with
  | submit th runAt p now =>
      rcases schedule_cases s th runAt p now with ⟨heq, _⟩ | ⟨hacc, _, heq⟩
      · simp only [stepEvent, heq]
        exact h
      · simp only [stepEvent, heq]
        intro hmode
        have h2 := h hmode
        simp [h2.2] at hacc
  | cancelReq cid =>
      rw [stepEvent_cancel_eq]
      split_ifs with hacc
      · intro hmode
        have h2 := h hmode
        simp [h2.2] at hacc
      · exact h
  | shutdownReq mode =>
      cases mode with
      | Immediate =>
          simp only [stepEvent, shutdown_immediate_eq]
          exact fun _ => ⟨by trivial, by trivial⟩
      | Graceful =>
          simp only [stepEvent, shutdown_graceful_eq]
          intro hmode
          simp at hmode
  | workerIter now endTime =>
      rcases stepEvent_worker_cases s now endTime with heq | ⟨heq, _⟩ | ⟨top, htop, _, _, hbr⟩
      · rw [heq]; exact h
      · rw [heq]
        intro hmode
        exact h hmode
      · have htm := queueTop_mem htop
        rcases hbr with ⟨_, heq⟩ | ⟨_, heq⟩
        · rw [heq]
          intro hmode
          have h2 := h hmode
          rw [h2.1] at htm
          simp at htm
        · rw [heq, executeJob_eq]
          intro hmode
          have h2 := h hmode
          rw [h2.1] at htm
          simp at htm

theorem immInv_run {s : SchedulerState} (h : ImmInv s) (t : List Event) :
    ImmInv (run s t).1 := by
  induction t generalizing s with
  | nil => exact h
  | cons e t ih =>
      simp only [run]
      exact ih (immInv_stepEvent h e)

/-- Sample job used in witnesses: High priority, due at time 0. -/
def jobHigh : Job :=
  { id := 1, runAt := 0, priority := Priority.High, throws := false, enqueuedAt := 0 }

/-- Sample job used in witnesses: Normal priority, due at time 0. -/
def jobNormal : Job :=
  { id := 2, runAt := 0, priority := Priority.Normal, throws := false, enqueuedAt := 0 }

/-- Sample job used in witnesses: not due until time 5. -/
def jobLate : Job :=
  { id := 1, runAt := 5, priority := Priority.Normal, throws := false, enqueuedAt := 0 }

theorem workerPoll_cases (s : SchedulerState) (now : Int) :
    (s.stopWorkers = true ∧
       Scheduler.workerPoll s now = (WorkerDecision.exitLoop, s)) ∨
    (s.stopWorkers = false ∧ s.queue = [] ∧ s.accepting = false ∧
       s.shutdownMode = ShutdownMode.Graceful ∧
       Scheduler.workerPoll s now =
         (WorkerDecision.exitLoop, { s with stopWorkers := true })) ∨
    (s.stopWorkers = false ∧ s.queue = [] ∧
       ¬(s.accepting = false ∧ s.shutdownMode = ShutdownMode.Graceful) ∧
       Scheduler.workerPoll s now = (WorkerDecision.waitEmpty, s)) ∨
    (∃ top, s.stopWorkers = false ∧ queueTop s.queue = some top ∧
       now < top.runAt ∧
       Scheduler.workerPoll s now = (WorkerDecision.timedWait top.runAt, s)) ∨
    (∃ top, s.stopWorkers = false ∧ queueTop s.queue = some top ∧
       ¬ now < top.runAt ∧ top.id ∈ s.cancelled ∧
       Scheduler.workerPoll s now =
         (WorkerDecision.skipCancelled top,
          { s with queue := s.queue.erase top
                   cancelled := s.cancelled.erase top.id })) ∨
    (∃ top, s.stopWorkers = false ∧ queueTop s.queue = some top ∧
       ¬ now < top.runAt ∧ top.id ∉ s.cancelled ∧
       Scheduler.workerPoll s now =
         (WorkerDecision.dispatch top, { s with queue := s.queue.erase top })) := by
  by_cases hs : s.stopWorkers = true
  · exact Or.inl ⟨hs, by simp [Scheduler.workerPoll, hs]⟩
  · have hs0 : s.stopWorkers = false := by
      rcases Bool.eq_false_or_eq_true s.stopWorkers with hb | hb
      · exact absurd hb hs
      · exact hb
    cases ht : queueTop s.queue with
    | none =>
        by_cases hg : s.accepting = false ∧ s.shutdownMode = ShutdownMode.Graceful
        · exact Or.inr (Or.inl ⟨hs0, queueTop_eq_none.mp ht, hg.1, hg.2,
            by simp [Scheduler.workerPoll, hs0, ht, hg]⟩)
        · exact Or.inr (Or.inr (Or.inl ⟨hs0, queueTop_eq_none.mp ht, hg,
            by simp [Scheduler.workerPoll, hs0, ht, hg]⟩))
    | some top =>
        by_cases hlt : now < top.runAt
        · exact Or.inr (Or.inr (Or.inr (Or.inl ⟨top, hs0, rfl, hlt,
            by simp [Scheduler.workerPoll, hs0, ht, hlt]⟩)))
        · by_cases hc : top.id ∈ s.cancelled
          · exact Or.inr (Or.inr (Or.inr (Or.inr (Or.inl ⟨top, hs0, rfl, hlt, hc,
              by simp [Scheduler.workerPoll, hs0, ht, hlt, hc]⟩))))
          · exact Or.inr (Or.inr (Or.inr (Or.inr (Or.inr ⟨top, hs0, rfl, hlt, hc,
              by simp [Scheduler.workerPoll, hs0, ht, hlt, hc]⟩))))

/-- C1: the queue's ready-ordering is the lexicographic strict total order
(earlier `runAt` first; on ties higher priority first, High > Normal > Low;
then lower identifier first): the source comparator `JobCompare` coincides
with that order, and in any queue with pairwise-distinct identifiers the
`top` element is the unique minimum under it, so of any two simultaneously
queued jobs the smaller one in this order is dispatched first. -/
theorem claim_C1_ready_ordering :
    (∀ a b : Job, JobCompare a b = true ↔ specDispatchBefore b a) ∧
    (∀ (l : List Job) (j : Job), (l.map Job.id).Nodup → queueTop l = some j →
       j ∈ l ∧ ∀ k ∈ l, k ≠ j → specDispatchBefore j k) ∧
    (∀ (l : List Job) (j : Job), (l.map Job.id).Nodup → j ∈ l →
       (∀ k ∈ l, k ≠ j → specDispatchBefore j k) → queueTop l = some j) :=
  ⟨jobCompare_iff,
   fun _ _ hnd h => ⟨queueTop_mem h, queueTop_min hnd h⟩,
   fun _ _ hnd hj hmin => queueTop_eq_of_min hnd hj hmin⟩

/-- Witness for C1 on a concrete two-job queue with equal `runAt`:
the High-priority job is the top and is ordered before the Normal one. -/
theorem claim_C1_witness : specDispatchBefore jobHigh jobNormal :=
  (claim_C1_ready_ordering.2.1 [jobNormal, jobHigh] jobHigh (by decide) (by decide)).2
    jobNormal (by decide) (by decide)

/-- C2: every dispatched job is dispatched at a monotonic-clock reading no
earlier than its `runAt`; a worker that finds the head still in the future
does not pop it but enters a timed wait bounded by the head's `runAt`. -/
theorem claim_C2_no_early_dispatch :
    (∀ (s : SchedulerState) (t : List Event) (j : Job) (now : Int),
       Obs.dispatched j now ∈ (run s t).2 → j.runAt ≤ now) ∧
    (∀ (s : SchedulerState) (now : Int) (top : Job),
       s.stopWorkers = false → queueTop s.queue = some top → now < top.runAt →
       Scheduler.workerPoll s now = (WorkerDecision.timedWait top.runAt, s)) := by
  constructor
  · intro s t j now h
    exact dispatch_time_run h
  · intro s now top hs ht hlt
    unfold Scheduler.workerPoll
    simp [hs, ht, hlt]

/-- Witness for C2 on a concrete state whose only job is due at time 5,
polled at time 0. -/
theorem claim_C2_witness :
    Scheduler.workerPoll { initState 10 with queue := [jobLate] } 0 =
      (WorkerDecision.timedWait jobLate.runAt, { initState 10 with queue := [jobLate] }) :=
  claim_C2_no_early_dispatch.2 { initState 10 with queue := [jobLate] } 0 jobLate
    rfl (by decide) (by decide)

/-- C3: a cancellation recorded (successfully) before any worker popped the
job prevents the closure from ever being invoked; and a worker that pops a
job whose identifier is in the cancellation set discards it without running
it, erases the set entry, and goes on to the next head. -/
theorem claim_C3_cancel_before_pop :
    (∀ (m : Nat) (t1 : List Event) (id : Nat) (t2 : List Event),
       (run (initState m) t1).1.accepting = true →
       (∀ j now, Obs.dispatched j now ∈ (run (initState m) t1).2 → j.id ≠ id) →
       (Scheduler.cancel (run (initState m) t1).1 id).2 = true ∧
         ∀ j now,
           Obs.dispatched j now ∈
               (run (Scheduler.cancel (run (initState m) t1).1 id).1 t2).2 →
           j.id ≠ id) ∧
    (∀ (s : SchedulerState) (now : Int) (top : Job),
       s.stopWorkers = false → queueTop s.queue = some top → top.runAt ≤ now →
       top.id ∈ s.cancelled →
       Scheduler.workerPoll s now =
         (WorkerDecision.skipCancelled top,
          { s with queue := s.queue.erase top
                   cancelled := s.cancelled.erase top.id })) := by
  constructor
  · intro m t1 id t2 hacc _hnotpopped
    have hwf1 : WF (run (initState m) t1).1 := WF_run (WF_initState m) t1
    constructor
    · rw [cancel_accepted_eq _ _ hacc]
    · have hsup : Suppressed id (Scheduler.cancel (run (initState m) t1).1 id).1 := by
        rw [cancel_accepted_eq _ _ hacc]
        exact Or.inl (List.mem_insert_self _ _)
      exact suppressed_run (WF_cancel hwf1 id) hsup t2
  · intro s now top hs ht hle hc
    unfold Scheduler.workerPoll
    have hnlt : ¬ now < top.runAt := by omega
    simp [hs, ht, hnlt, hc]

/-- Witness for C3: cancelling id 1 on a fresh scheduler succeeds. -/
theorem claim_C3_witness :
    (Scheduler.cancel (run (initState 3) []).1 1).2 = true :=
  (claim_C3_cancel_before_pop.1 3 [] 1 [] rfl
    (by intro j now h; simp [run] at h)).1

/-- C4: under the mutex, submission is rejected (returns `nullopt`) exactly
when `accepting` is false or the queue already holds `maxQueueSize` jobs;
otherwise it allocates the next identifier, records `enqueuedAt = now`,
pushes the job, and returns that identifier. -/
theorem claim_C4_submission_contract :
    ∀ (s : SchedulerState) (th : Bool) (runAt : Int) (p : Priority) (now : Int),
      ((Scheduler.schedule s th runAt p now).2 = none ↔
         (s.accepting = false ∨ s.maxQueueSize ≤ s.queue.length)) ∧
      (s.accepting = true → s.queue.length < s.maxQueueSize →
         Scheduler.schedule s th runAt p now =
           ({ s with
                nextId := s.nextId + 1
                queue := { id := s.nextId, runAt := runAt, priority := p
                           throws := th, enqueuedAt := now } :: s.queue },
            some s.nextId)) := by
  intro s th runAt p now
  constructor
  · constructor
    · intro hnone
      rcases schedule_cases s th runAt p now with ⟨_, hcond⟩ | ⟨_, _, heq⟩
      · exact hcond
      · rw [heq] at hnone
        simp at hnone
    · intro hcond
      simp only [Scheduler.schedule, if_pos hcond]
  · intro h1 h2
    rcases schedule_cases s th runAt p now with ⟨_, hcond⟩ | ⟨_, _, heq⟩
    · rcases hcond with hc | hc
      · simp [h1] at hc
      · omega
    · exact heq

/-- Witness for C4: an accepted submission on a fresh scheduler returns
identifier 1 and pushes the job with `enqueuedAt` equal to the given clock
reading. -/
theorem claim_C4_witness :
    Scheduler.schedule (initState 3) false 7 Priority.Low 2 =
      ({ initState 3 with
           nextId := (initState 3).nextId + 1
           queue := [{ id := (initState 3).nextId, runAt := 7
                       priority := Priority.Low, throws := false, enqueuedAt := 2 }] },
       some (initState 3).nextId) :=
  (claim_C4_submission_contract (initState 3) false 7 Priority.Low 2).2 rfl (by decide)

/-- C5: a worker sets `stopWorkers` and exits under Graceful mode only when
the queue is empty; and in any fully drained execution (final queue empty,
no immediate-shutdown drops) the number of invoked closures equals accepted
submissions minus cancelled-before-pop skips, with no identifier dispatched
twice. -/
theorem claim_C5_graceful_drain :
    (∀ (m : Nat) (t : List Event),
       (run (initState m) t).1.queue = [] →
       countDropped (run (initState m) t).2 = 0 →
       countAccepted (run (initState m) t).2 =
           countDispatched (run (initState m) t).2 +
             countSkipped (run (initState m) t).2 ∧
         (dispatchedIds (run (initState m) t).2).Nodup) ∧
    (∀ (s : SchedulerState) (now : Int) (d : WorkerDecision) (s1 : SchedulerState),
       Scheduler.workerPoll s now = (d, s1) → s.stopWorkers = false →
       s1.stopWorkers = true →
       s.queue = [] ∧ s.accepting = false ∧
         s.shutdownMode = ShutdownMode.Graceful ∧ d = WorkerDecision.exitLoop) := by
  constructor
  · intro m t hq hdrop
    have hc := conservation_run (initState m) t
    constructor
    · have hlen : (run (initState m) t).1.queue.length = 0 := by rw [hq]; rfl
      have hinit : (initState m).queue.length = 0 := rfl
      omega
    · exact dispatchedIds_nodup_run (WF_initState m) t
  · intro s now d s1 hpoll hs0 hs1
    rcases workerPoll_cases s now with ⟨hs, _⟩ | ⟨_, hq, ha, hm, heq⟩ |
      ⟨_, _, _, heq⟩ | ⟨top, _, _, _, heq⟩ | ⟨top, _, _, _, _, heq⟩ |
      ⟨top, _, _, _, _, heq⟩
    · simp [hs0] at hs
    · rw [heq] at hpoll
      simp only [Prod.mk.injEq] at hpoll
      exact ⟨hq, ha, hm, hpoll.1.symm⟩
    · rw [heq] at hpoll
      simp only [Prod.mk.injEq] at hpoll
      rw [← hpoll.2] at hs1
      simp [hs0] at hs1
    · rw [heq] at hpoll
      simp only [Prod.mk.injEq] at hpoll
      rw [← hpoll.2] at hs1
      simp [hs0] at hs1
    · rw [heq] at hpoll
      simp only [Prod.mk.injEq] at hpoll
      rw [← hpoll.2] at hs1
      simp [hs0] at hs1
    · rw [heq] at hpoll
      simp only [Prod.mk.injEq] at hpoll
      rw [← hpoll.2] at hs1
      simp [hs0] at hs1

/-- Witness for C5 on the empty execution: nothing accepted, dispatched or
skipped, and the dispatched-identifier list is duplicate-free. -/
theorem claim_C5_witness :
    countAccepted (run (initState 5) []).2 =
        countDispatched (run (initState 5) []).2 +
          countSkipped (run (initState 5) []).2 ∧
      (dispatchedIds (run (initState 5) []).2).Nodup :=
  claim_C5_graceful_drain.1 5 [] rfl rfl

/-- C6: an Immediate shutdown atomically turns acceptance off, records the
mode, discards every queued job and sets `stopWorkers`; in every reachable
state `shutdownMode = Immediate` implies the queue is empty; and after an
Immediate shutdown no closure is ever invoked (in particular none that was
undispatched at the shutdown instant). -/
theorem claim_C6_immediate_shutdown :
    (∀ s : SchedulerState,
       Scheduler.shutdown s ShutdownMode.Immediate =
         { s with accepting := false, shutdownMode := ShutdownMode.Immediate
                  queue := [], stopWorkers := true }) ∧
    (∀ (m : Nat) (t : List Event),
       (run (initState m) t).1.shutdownMode = ShutdownMode.Immediate →
       (run (initState m) t).1.queue = []) ∧
    (∀ (s : SchedulerState) (t : List Event) (j : Job) (now : Int),
       Obs.dispatched j now ∉
         (run (Scheduler.shutdown s ShutdownMode.Immediate) t).2) :=
  ⟨shutdown_immediate_eq,
   fun m t hmode => (immInv_run (immInv_initState m) t hmode).1,
   fun _ t j now => drained_run rfl rfl t j now⟩

/-- Witness for C6: after an Immediate shutdown request on a fresh scheduler
the queue is empty. -/
theorem claim_C6_witness :
    (run (initState 1) [Event.shutdownReq ShutdownMode.Immediate]).1.queue = [] :=
  claim_C6_immediate_shutdown.2.1 1 [Event.shutdownReq ShutdownMode.Immediate]
    (by decide)

/-- C7: an exception thrown by a job's closure is caught and swallowed by the
worker: the dispatch path produces exactly the same state whether or not the
closure throws (so the completion counter and cumulative dispatch-latency
are updated identically), and every subsequent behaviour of the scheduler is
unchanged, so later jobs are dispatched exactly as they would have been. -/
theorem claim_C7_exception_swallowed :
    (∀ (s : SchedulerState) (j : Job) (endTime : Int) (b1 b2 : Bool),
       Scheduler.executeJob s { j with throws := b1 } endTime =
         Scheduler.executeJob s { j with throws := b2 } endTime) ∧
    (∀ (s : SchedulerState) (j : Job) (endTime : Int),
       (Scheduler.executeJob s j endTime).completedJobs = s.completedJobs + 1 ∧
       (Scheduler.executeJob s j endTime).totalWaitNs =
         s.totalWaitNs + (endTime - j.enqueuedAt).toNat ∧
       (Scheduler.executeJob s j endTime).runningJobs = s.runningJobs ∧
       (Scheduler.executeJob s j endTime).queue = s.queue ∧
       (Scheduler.executeJob s j endTime).stopWorkers = s.stopWorkers) ∧
    (∀ (s : SchedulerState) (j : Job) (endTime : Int) (t : List Event),
       run (Scheduler.executeJob s { j with throws := true } endTime) t =
         run (Scheduler.executeJob s { j with throws := false } endTime) t) := by
  refine ⟨?_, ?_, ?_⟩
  · intro s j endTime b1 b2
    simp [executeJob_eq]
  · intro s j endTime
    rw [executeJob_eq]
    exact ⟨rfl, rfl, rfl, rfl, rfl⟩
  · intro s j endTime t
    simp [executeJob_eq]

/-- C8: cancellation is refused exactly when `accepting` is false; when
accepting it inserts the identifier into the cancellation set and returns
success, with no user-visible error for unknown or already-dispatched
identifiers. -/
theorem claim_C8_cancel_contract :
    ∀ (s : SchedulerState) (id : Nat),
      ((Scheduler.cancel s id).2 = false ↔ s.accepting = false) ∧
      (s.accepting = true →
         Scheduler.cancel s id =
             ({ s with cancelled := s.cancelled.insert id }, true) ∧
           id ∈ (Scheduler.cancel s id).1.cancelled) := by
  intro s id
  refine ⟨cancel_refused_iff s id, ?_⟩
  intro h
  refine ⟨cancel_accepted_eq s id h, ?_⟩
  rw [cancel_accepted_eq s id h]
  exact List.mem_insert_self _ _

/-- Witness for C8: cancelling the unknown identifier 99 on a fresh
scheduler records it and succeeds. -/
theorem claim_C8_witness :
    Scheduler.cancel (initState 4) 99 =
        ({ initState 4 with cancelled := (initState 4).cancelled.insert 99 }, true) ∧
      99 ∈ (Scheduler.cancel (initState 4) 99).1.cancelled :=
  (claim_C8_cancel_contract (initState 4) 99).2 rfl

/-- C9: the identifier counter starts at 1 and increments only on accepted
submissions: in any execution the accepted identifiers are exactly
1, 2, …, n in submission order (hence strictly increasing and never reused),
and a rejected submission consumes no identifier and leaves the whole state
(queue included) unchanged. -/
theorem claim_C9_identifiers :
    (∀ m : Nat, (initState m).nextId = 1) ∧
    (∀ (m : Nat) (t : List Event),
       acceptedIds (run (initState m) t).2 =
           List.range' 1 (countAccepted (run (initState m) t).2) ∧
         List.Pairwise (· < ·) (acceptedIds (run (initState m) t).2) ∧
         (run (initState m) t).1.nextId =
           1 + countAccepted (run (initState m) t).2) ∧
    (∀ (s : SchedulerState) (th : Bool) (runAt : Int) (p : Priority) (now : Int),
       (Scheduler.schedule s th runAt p now).2 = none →
       Scheduler.schedule s th runAt p now = (s, none)) := by
  refine ⟨fun m => rfl, ?_, ?_⟩
  · intro m t
    obtain ⟨h1, h2⟩ := ids_consecutive_run (initState m) t
    refine ⟨h1, ?_, h2⟩
    rw [h1]
    exact List.pairwise_lt_range' _ _
  · intro s th runAt p now hnone
    rcases schedule_cases s th runAt p now with ⟨heq, _⟩ | ⟨_, _, heq⟩
    · exact heq
    · rw [heq] at hnone
      simp at hnone

/-- Witness for C9: a submission while not accepting is rejected and leaves
the state unchanged. -/
theorem claim_C9_witness :
    Scheduler.schedule { initState 2 with accepting := false } true 0
        Priority.High 0 =
      ({ initState 2 with accepting := false }, none) :=
  claim_C9_identifiers.2.2 { initState 2 with accepting := false } true 0
    Priority.High 0 (by decide)

/-- C10: while `accepting` is true, cancel succeeds for any identifier,
including ones the counter has not yet issued; because the cancellation set
is consulted only at pop time, the job later assigned that identifier is
skipped when popped, so its closure is never invoked even though it was
submitted after the cancel. -/
theorem claim_C10_cancel_future_identifier :
    ∀ (m : Nat) (t1 : List Event) (id : Nat) (t2 : List Event),
      (run (initState m) t1).1.accepting = true →
      (run (initState m) t1).1.nextId ≤ id →
      (Scheduler.cancel (run (initState m) t1).1 id).2 = true ∧
        ∀ j now,
          Obs.dispatched j now ∈
              (run (Scheduler.cancel (run (initState m) t1).1 id).1 t2).2 →
          j.id ≠ id := by
  intro m t1 id t2 hacc _hfuture
  have hwf1 : WF (run (initState m) t1).1 := WF_run (WF_initState m) t1
  constructor
  · rw [cancel_accepted_eq _ _ hacc]
  · have hsup : Suppressed id (Scheduler.cancel (run (initState m) t1).1 id).1 := by
      rw [cancel_accepted_eq _ _ hacc]
      exact Or.inl (List.mem_insert_self _ _)
    exact suppressed_run (WF_cancel hwf1 id) hsup t2

/-- Witness for C10: cancelling identifier 1 on a fresh scheduler (which has
not yet issued any identifier) succeeds. -/
theorem claim_C10_witness :
    (Scheduler.cancel (run (initState 2) []).1 1).2 = true :=
  (claim_C10_cancel_future_identifier 2 [] 1 [] rfl (by decide)).1
